import Mathlib

/-!
Verification development for the emotion-detection backend
(`src/emotion-detection-app/backend/app.py`).

The Python source is shallowly embedded below.  Conventions:

* Python strings are `String` / `List Char`; arbitrary non-string Python
  values entering a text slot are the constructor `PyValue.other`.
* Python floats are modelled as exact rationals (`ℚ`); `round(x, 2)` is
  modelled by `pyRound2`, rounding half to even as Python does.
* Fallible components (the pickled vectorizer and classifier, which can
  raise) are modelled as functions into `Except String _`; the `try ... except`
  of `EmotionPredictor.predict` becomes explicit propagation into the
  `PredictResult.fail` constructor (Python: a dict with `success: False`).
* The WordNet lemmatizer and the NLTK English stopword corpus are external
  data artifacts, not code of this repository.  The lemmatizer is therefore a
  parameter (`lem`) of every definition that uses it, and the stopword corpus
  is transcribed as the literal `nltk_stopwords` list below.
* All definitions are structurally recursive, hence kernel-computable, so
  concrete runs can be settled with `decide`.
-/

set_option maxRecDepth 4000

namespace EmotionApp

/-- Character class of Python regex `\s` (ASCII part): space, tab, newline,
carriage return, vertical tab, form feed.  Python also accepts some Unicode
space characters which cannot reach the relevant code paths here and are kept
out of the model. -/
def pyIsSpace (c : Char) : Bool :=
  c = ' ' || c = '\t' || c = '\n' || c = '\r' || c = '\x0b' || c = '\x0c'

/-- ASCII uppercase/lowercase pairs for `str.lower()`. -/
def asciiUpper : List (Char × Char) :=
  [('A', 'a'), ('B', 'b'), ('C', 'c'), ('D', 'd'), ('E', 'e'), ('F', 'f'),
   ('G', 'g'), ('H', 'h'), ('I', 'i'), ('J', 'j'), ('K', 'k'), ('L', 'l'),
   ('M', 'm'), ('N', 'n'), ('O', 'o'), ('P', 'p'), ('Q', 'q'), ('R', 'r'),
   ('S', 's'), ('T', 't'), ('U', 'u'), ('V', 'v'), ('W', 'w'), ('X', 'x'),
   ('Y', 'y'), ('Z', 'z')]

/-- Model of Python `str.lower()` on one character (ASCII range; non-ASCII
cased letters are erased later by the `[^a-zA-Z\s]` filter either way). -/
def pyToLower (c : Char) : Char :=
  ((asciiUpper.find? (fun p => p.1 == c)).map Prod.snd).getD c

/-- Character class of Python regex `\w` (ASCII part): letters, digits,
underscore. -/
def isWordChar (c : Char) : Bool :=
  c.isAlpha || c.isDigit || c = '_'

/-- Length of the match of `http\S+|www\S+|https\S+` anchored at the head of
`l`, if any.  The branch `https\S+` is subsumed by `http\S+` and needs no case
of its own. -/
def matchUrlLen (l : List Char) : Option Nat :=
  if l.take 4 = ['h', 't', 't', 'p'] then
    let k := ((l.drop 4).takeWhile (fun c => !pyIsSpace c)).length
    if 0 < k then some (4 + k) else none
  else if l.take 3 = ['w', 'w', 'w'] then
    let k := ((l.drop 3).takeWhile (fun c => !pyIsSpace c)).length
    if 0 < k then some (3 + k) else none
  else none

/-- Worker for `re.sub(r'http\S+|www\S+|https\S+', '', text)`: scan left to
right, at each position try the alternatives, on a match delete it and resume
after it (`skip` counts characters of a match still to delete). -/
def stripUrlsAux : Nat → List Char → List Char
  | _, [] => []
  | skip + 1, _c :: cs => stripUrlsAux skip cs
  | 0, c :: cs =>
    match matchUrlLen (c :: cs) with
    | some k => stripUrlsAux (k - 1) cs
    | none => c :: stripUrlsAux 0 cs

/-- Model of `re.sub(r'http\S+|www\S+|https\S+', '', text)`. -/
def stripUrls (l : List Char) : List Char :=
  stripUrlsAux 0 l

/-- Worker for `re.sub(r'@\w+|#\w+', '', text)`, same scanning scheme. -/
def stripMentionsAux : Nat → List Char → List Char
  | _, [] => []
  | skip + 1, _c :: cs => stripMentionsAux skip cs
  | 0, c :: cs =>
    if c = '@' || c = '#' then
      let k := (cs.takeWhile isWordChar).length
      if 0 < k then stripMentionsAux k cs else c :: stripMentionsAux 0 cs
    else c :: stripMentionsAux 0 cs

/-- Model of `re.sub(r'@\w+|#\w+', '', text)`. -/
def stripMentions (l : List Char) : List Char :=
  stripMentionsAux 0 l

/-- Model of `re.sub(r'[^a-zA-Z\s]', '', text)`: keep letters and whitespace. -/
def keepAlphaSpace (l : List Char) : List Char :=
  l.filter (fun c => c.isAlpha || pyIsSpace c)

/-- Worker for `re.sub(r'\s+', ' ', text)`: the flag records whether the
previous character was whitespace (run already emitted). -/
def collapseAux : Bool → List Char → List Char
  | _, [] => []
  | inRun, c :: cs =>
    if pyIsSpace c then
      if inRun then collapseAux true cs else ' ' :: collapseAux true cs
    else c :: collapseAux false cs

/-- Model of `re.sub(r'\s+', ' ', text)`. -/
def collapseSpaces (l : List Char) : List Char :=
  collapseAux false l

/-- Model of Python `str.strip()`. -/
def pyStrip (l : List Char) : List Char :=
  ((l.dropWhile pyIsSpace).reverse.dropWhile pyIsSpace).reverse

/-- Worker for tokenization: `acc` is the reversed current word. -/
def splitWordsAux : List Char → List Char → List (List Char)
  | acc, [] => if acc = [] then [] else [acc.reverse]
  | acc, c :: cs =>
    if pyIsSpace c then
      if acc = [] then splitWordsAux [] cs else acc.reverse :: splitWordsAux [] cs
    else splitWordsAux (c :: acc) cs

/-- Model of `nltk.word_tokenize` on the text reaching it in
`preprocess_text`: at that point the text consists of letters and single
spaces only, on which the NLTK tokenizer is exactly whitespace splitting. -/
def splitWords (l : List Char) : List (List Char) :=
  splitWordsAux [] l

/-- Transcription of the NLTK English stopword corpus (external data artifact
loaded by `stopwords.words('english')`).  Entries that contain an apostrophe
character are omitted: tokens reaching the stopword filter are purely
alphabetic, so such entries can never match. -/
def nltk_stopwords : List String :=
  ["i", "me", "my", "myself", "we", "our", "ours", "ourselves", "you",
   "your", "yours", "yourself", "yourselves", "he", "him", "his", "himself",
   "she", "her", "hers", "herself", "it", "its", "itself", "they", "them",
   "their", "theirs", "themselves", "what", "which", "who", "whom", "this",
   "that", "these", "those", "am", "is", "are", "was", "were", "be", "been",
   "being", "have", "has", "had", "having", "do", "does", "did", "doing",
   "a", "an", "the", "and", "but", "if", "or", "because", "as", "until",
   "while", "of", "at", "by", "for", "with", "about", "against", "between",
   "into", "through", "during", "before", "after", "above", "below", "to",
   "from", "up", "down", "in", "out", "on", "off", "over", "under", "again",
   "further", "then", "once", "here", "there", "when", "where", "why", "how",
   "all", "any", "both", "each", "few", "more", "most", "other", "some",
   "such", "no", "nor", "not", "only", "own", "same", "so", "than", "too",
   "very", "s", "t", "can", "will", "just", "don", "should", "now", "d",
   "ll", "m", "o", "re", "ve", "y", "ain", "aren", "couldn", "didn",
   "doesn", "hadn", "hasn", "haven", "isn", "ma", "mightn", "mustn",
   "needn", "shan", "shouldn", "wasn", "weren", "won", "wouldn"]

/-- `EMOTION_WORDS` from app.py line 82: the negation-preserving exception
set. -/
def EMOTION_WORDS : List String :=
  ["not", "no", "never", "neither", "nobody", "nothing", "nowhere",
   "hardly", "barely", "scarcely", "rarely", "seldom"]

/-- `stop_words = set(stopwords.words('english')) - EMOTION_WORDS`
(app.py line 84, the normal non-fallback path). -/
def stop_words : List String :=
  nltk_stopwords.filter (fun w => !(EMOTION_WORDS.contains w))

/-- A Python value arriving in a text position: either an actual string or
any non-string object (`isinstance(text, str)` fails on the latter). -/
inductive PyValue where
  | str (s : String)
  | other
  deriving DecidableEq, Repr

/-- Steps 1-5 of `preprocess_text` (app.py lines 139-152): lowercase, strip
URLs, strip mentions/hashtags, keep letters and whitespace, collapse
whitespace runs and strip the ends. -/
def cleanedText (l : List Char) : List Char :=
  pyStrip (collapseSpaces (keepAlphaSpace (stripMentions (stripUrls (l.map pyToLower)))))

/-- Tokens surviving the stopword and length filters of `preprocess_text`
(app.py lines 158-162), before lemmatization. -/
def keptTokens (l : List Char) : List (List Char) :=
  (splitWords (cleanedText l)).filter
    (fun tk => !(stop_words.contains (String.mk tk)) && decide (2 < tk.length))

/-- The processed token list of `preprocess_text`: surviving tokens, each
passed through the lemmatizer `lem`. -/
def preprocess_tokens (lem : List Char → List Char) (l : List Char) : List (List Char) :=
  (keptTokens l).map lem

/-- Model of `' '.join(tokens)`. -/
def joinTokens : List (List Char) → List Char
  | [] => []
  | [t] => t
  | t :: ts => t ++ ' ' :: joinTokens ts

/-- `EmotionPredictor.preprocess_text` (app.py lines 126-164), parameterized
by the external WordNet lemmatizer `lem`.  Non-string input returns `""`
(line 136-137); otherwise the pipeline output tokens are joined with single
spaces. -/
def preprocess_text (lem : List Char → List Char) : PyValue → String
  | PyValue.str s => String.mk (joinTokens (preprocess_tokens lem s.data))
  | PyValue.other => ""

/-- Identity instantiation of the lemmatizer parameter, used for concrete
evaluations.  (On every token exercised by the concrete inputs below, the
real WordNet default noun lemmatization is also the identity.) -/
def lemId (l : List Char) : List Char := l

/-- Model of Python `round` to an integer: round half to even. -/
def pyRoundInt (x : ℚ) : ℤ :=
  if x - (⌊x⌋ : ℚ) < 1 / 2 then ⌊x⌋
  else if (1 : ℚ) / 2 < x - (⌊x⌋ : ℚ) then ⌊x⌋ + 1
  else if ⌊x⌋ % 2 = 0 then ⌊x⌋ else ⌊x⌋ + 1

/-- Model of Python `round(x, 2)`. -/
def pyRound2 (x : ℚ) : ℚ :=
  (pyRoundInt (x * 100) : ℚ) / 100

/-- Model of Python `max` on a list of numbers: raises `ValueError` on an
empty sequence (caught by the surrounding `try` in `predict`). -/
def pymaxQ : List ℚ → Except String ℚ
  | [] => Except.error "max() arg is an empty sequence"
  | x :: xs => Except.ok (xs.foldl max x)

/-- Python dict assignment `d[k] = v` on an insertion-ordered association
list: update in place if the key is present, else append. -/
def dictSet {β : Type} (d : List (String × β)) (k : String) (v : β) : List (String × β) :=
  if d.any (fun p => p.1 == k) then d.map (fun p => if p.1 == k then (k, v) else p)
  else d ++ [(k, v)]

/-- Python `d.get(k)` / `d[k]` lookup on an association list. -/
def dictGet? {β : Type} (d : List (String × β)) (k : String) : Option β :=
  (d.find? (fun p => p.1 == k)).map Prod.snd

/-- The dict comprehension `{label: prob for label, prob in zip(classes, probs)}`. -/
def buildProbDict (classes : List String) (ps : List ℚ) : List (String × ℚ) :=
  (classes.zip ps).foldl (fun d p => dictSet d p.1 p.2) []

/-- Comparison used by `sorted(..., key=lambda x: x[1], reverse=True)`:
`a` may precede `b` iff `a`'s probability is at least `b`'s. -/
def probGE (a b : String × ℚ) : Prop :=
  b.2 ≤ a.2

instance : DecidableRel probGE := fun a b => inferInstanceAs (Decidable (b.2 ≤ a.2))

instance : IsTotal (String × ℚ) probGE :=
  ⟨fun a b => le_total b.2 a.2⟩

instance : IsTrans (String × ℚ) probGE :=
  ⟨fun _ _ _ h1 h2 => le_trans h2 h1⟩

/-- Model of `sorted(all_probabilities.items(), key=lambda x: x[1],
reverse=True)`: CPython `sorted` is a stable sort, and insertion sort with a
non-strict total relation is stable, so the two agree. -/
def sortProbsDesc (l : List (String × ℚ)) : List (String × ℚ) :=
  List.insertionSort probGE l

/-- Static metadata record of one emotion label (`EMOTION_CONFIG` values). -/
structure EmotionDetails where
  emoji : String
  color : String
  description : String
  intensity : String
  deriving DecidableEq, Repr

/-- `EMOTION_CONFIG` (app.py lines 44-75), insertion order preserved. -/
def EMOTION_CONFIG : List (String × EmotionDetails) :=
  [("happiness", ⟨"😊", "#FFD700", "Joyful, content, or pleased feeling", "positive"⟩),
   ("anger", ⟨"😠", "#DC143C", "Irritated, frustrated, or furious feeling", "negative"⟩),
   ("sadness", ⟨"😢", "#4169E1", "Unhappy, sorrowful, or depressed feeling", "negative"⟩),
   ("stress", ⟨"😰", "#FF8C00", "Anxious, overwhelmed, or tense feeling", "negative"⟩),
   ("neutral", ⟨"😐", "#808080", "No strong emotion detected", "neutral"⟩)]

/-- The sentinel metadata dict passed as default to `EMOTION_CONFIG.get`
in `predict` (app.py lines 211-216). -/
def unknownDetails : EmotionDetails :=
  ⟨"❓", "#000000", "Unknown emotion", "unknown"⟩

/-- `EMOTION_CONFIG.get(emotion, <sentinel>)` (app.py line 211). -/
def configGet (k : String) : EmotionDetails :=
  ((EMOTION_CONFIG.find? (fun p => p.1 == k)).map Prod.snd).getD unknownDetails

/-- The loaded classifier artifacts, abstracted: `transform` is
`self.vectorizer.transform([..])`, `predictLabel` is
`self.model.predict(..)[0]`, `predictProba` is
`self.model.predict_proba(..)[0]` (with `classes` = `self.model.classes_`)
and `hasPredictProba` is `hasattr(self.model, 'predict_proba')`.  `φ` is the
opaque feature-vector type.  Each fallible call returns `Except`, standing
for a Python call that may raise. -/
structure Model (φ : Type) where
  transform : String → Except String φ
  predictLabel : φ → Except String String
  hasPredictProba : Bool
  predictProba : φ → Except String (List ℚ)
  classes : List String

/-- Fields of the success dict returned by `EmotionPredictor.predict`. -/
structure Payload where
  emotion : String
  confidence : ℚ
  emoji : String
  color : String
  description : String
  intensity : String
  all_probabilities : List (String × ℚ)
  processed_text : String
  original_text : PyValue
  deriving DecidableEq, Repr

/-- Return value of `EmotionPredictor.predict`: `ok` is the dict with
`success: True`, `fail e` the dict `{'success': False, 'error': e}`. -/
inductive PredictResult where
  | ok (p : Payload)
  | fail (error : String)
  deriving DecidableEq, Repr

/-- Assembly of the success dict (app.py lines 210-232): metadata lookup with
sentinel default, confidence scaled to a percentage and rounded, the first 5
probability entries scaled and rounded. -/
def mkOk (emotion : String) (confidence : ℚ) (all_probabilities : List (String × ℚ))
    (processed : String) (text : PyValue) : PredictResult :=
  let d := configGet emotion
  PredictResult.ok
    { emotion := emotion
      confidence := pyRound2 (confidence * 100)
      emoji := d.emoji
      color := d.color
      description := d.description
      intensity := d.intensity
      all_probabilities := (all_probabilities.take 5).map (fun p => (p.1, pyRound2 (p.2 * 100)))
      processed_text := processed
      original_text := text }

/-- `EmotionPredictor.predict` (app.py lines 166-239).  The early `return`
for empty preprocessed text and the `except` clause both produce `fail`;
errors of the fallible model calls propagate to the `except` clause, i.e.
into `fail` with the raised message. -/
def predict {φ : Type} (m : Model φ) (lem : List Char → List Char) (text : PyValue) :
    PredictResult :=
  let processed := preprocess_text lem text
  if processed = "" then PredictResult.fail "Text is empty after preprocessing"
  else
    match m.transform processed with
    | Except.error e => PredictResult.fail e
    | Except.ok v =>
      match m.predictLabel v with
      | Except.error e => PredictResult.fail e
      | Except.ok emotion =>
        if m.hasPredictProba then
          match m.predictProba v with
          | Except.error e => PredictResult.fail e
          | Except.ok probabilities =>
            match pymaxQ probabilities with
            | Except.error e => PredictResult.fail e
            | Except.ok confidence =>
              mkOk emotion confidence (sortProbsDesc (buildProbDict m.classes probabilities))
                processed text
        else
          mkOk emotion 1 [(emotion, 1)] processed text

/-- A tiny concrete model instance used by witnesses: the feature type is the
processed text itself, the label and probability vector are read off from it
by pure functions supplied per witness. -/
def mkTestModel (lbl : String → String) (pr : String → List ℚ) (cls : List String) :
    Model String :=
  { transform := fun s => Except.ok s
    predictLabel := fun s => Except.ok (lbl s)
    hasPredictProba := true
    predictProba := fun s => Except.ok (pr s)
    classes := cls }

/-- Core of the `/predict/batch` route `predict_batch` (app.py lines
384-399), after the transport-layer checks that `texts` is present and is a
list: reject more than 50 texts as a whole, otherwise predict each text
independently, in order. -/
def predict_batch {φ : Type} (m : Model φ) (lem : List Char → List Char)
    (texts : List PyValue) : Except String (List PredictResult) :=
  if 50 < texts.length then Except.error "Maximum 50 texts allowed per batch"
  else Except.ok (texts.map (predict m lem))

/-- History insert-and-truncate step of the `/predict` route
(app.py lines 338-342): `prediction_history.insert(0, history_entry)`, then
`prediction_history.pop()` when the length exceeds 100. -/
def recordHistory {α : Type} (h : List α) (e : α) : List α :=
  let h2 := e :: h
  if 100 < h2.length then h2.dropLast else h2

/-- Recording a sequence of entries, oldest first, into an initially empty
history. -/
def recordAll {α : Type} (es : List α) : List α :=
  es.foldl recordHistory []

/-- A conversation message as consumed by `analyze_conversation`: the fields
other than `text` (represented by `sender`) are carried through verbatim;
`text?` is `none` when the message dict has no `'text'` key. -/
structure PyMsg where
  sender : String
  text? : Option PyValue
  deriving DecidableEq, Repr

/-- An annotated message appended to `analyzed_messages` (app.py lines
496-502). -/
structure AnalyzedMsg where
  msg : PyMsg
  emotion : String
  confidence : ℚ
  emoji : String
  deriving DecidableEq, Repr

/-- `emotion_counts[emotion] = emotion_counts.get(emotion, 0) + 1`
(app.py line 506). -/
def dictIncr (d : List (String × ℕ)) (k : String) : List (String × ℕ) :=
  dictSet d k ((dictGet? d k).getD 0 + 1)

/-- State of the message loop of `analyze_conversation` (app.py lines
488-507). -/
structure AnalyzeAcc where
  analyzed : List AnalyzedMsg
  counts : List (String × ℕ)
  total_confidence : ℚ
  deriving DecidableEq, Repr

/-- One iteration of the message loop of `analyze_conversation`: messages
without a `'text'` key, and messages whose prediction fails, are skipped. -/
def analyzeStep {φ : Type} (m : Model φ) (lem : List Char → List Char)
    (acc : AnalyzeAcc) (msg : PyMsg) : AnalyzeAcc :=
  match msg.text? with
  | none => acc
  | some t =>
    match predict m lem t with
    | PredictResult.ok p =>
      { analyzed := acc.analyzed ++ [⟨msg, p.emotion, p.confidence, p.emoji⟩]
        counts := dictIncr acc.counts p.emotion
        total_confidence := acc.total_confidence + p.confidence }
    | PredictResult.fail _ => acc

/-- Python `max(emotion_counts, key=emotion_counts.get)` on a nonempty
insertion-ordered dict (keys are distinct by construction): `max` replaces
its current best only on a strictly greater key value, so the result is the
first key of maximal count in insertion order. -/
def pyMaxKey (p0 : String × ℕ) (ps : List (String × ℕ)) : String :=
  (ps.foldl (fun best q => if best.2 < q.2 then q else best) p0).1

/-- `EMOTION_CONFIG.get(dominant_emotion, {}).get('emoji', '😐')`
(app.py line 527): inner lookup of the metadata dict with `{}` as default,
then lookup of `'emoji'` with the neutral glyph as default — so an unknown
dominant label falls back to "😐". -/
def dominantEmojiLookup (k : String) : String :=
  match dictGet? EMOTION_CONFIG k with
  | some d => d.emoji
  | none => "😐"

/-- One `sentiment_summary` bucket (app.py lines 530-543). -/
structure SentimentBucket where
  count : ℕ
  percentage : ℚ
  deriving DecidableEq, Repr

/-- The JSON body built by `analyze_conversation` (app.py lines 523-545),
minus the constant `success: True` flag. -/
structure ConversationSummary where
  total_messages : ℕ
  dominant_emotion : String
  dominant_emoji : String
  average_confidence : ℚ
  emotion_distribution : List (String × ℕ)
  positive : SentimentBucket
  negative : SentimentBucket
  neutral : SentimentBucket
  analyzed_messages : List AnalyzedMsg
  deriving DecidableEq, Repr

/-- Core of the `/analyze` route `analyze_conversation` (app.py lines
455-545), after the transport-layer checks that `messages` is present and is
a list. -/
def analyze_conversation {φ : Type} (m : Model φ) (lem : List Char → List Char)
    (messages : List PyMsg) : ConversationSummary :=
  let acc := messages.foldl (analyzeStep m lem) ⟨[], [], 0⟩
  let dominant_emotion :=
    match acc.counts with
    | [] => "neutral"
    | p :: ps => pyMaxKey p ps
  let avg : ℚ := if acc.analyzed = [] then 0 else acc.total_confidence / acc.analyzed.length
  let positive_count := (["happiness"].map (fun e => (dictGet? acc.counts e).getD 0)).sum
  let negative_count :=
    (["anger", "sadness", "stress"].map (fun e => (dictGet? acc.counts e).getD 0)).sum
  let neutral_count := (dictGet? acc.counts "neutral").getD 0
  let total := acc.analyzed.length
  { total_messages := total
    dominant_emotion := dominant_emotion
    dominant_emoji := dominantEmojiLookup dominant_emotion
    average_confidence := pyRound2 avg
    emotion_distribution := acc.counts
    positive :=
      ⟨positive_count, if 0 < total then pyRound2 ((positive_count : ℚ) / total * 100) else 0⟩
    negative :=
      ⟨negative_count, if 0 < total then pyRound2 ((negative_count : ℚ) / total * 100) else 0⟩
    neutral :=
      ⟨neutral_count, if 0 < total then pyRound2 ((neutral_count : ℚ) / total * 100) else 0⟩
    analyzed_messages := acc.analyzed }

/-- The contribution of one message to `analyzed_messages`: `none` when the
message has no `'text'` key or its prediction fails. -/
def analyzedOf {φ : Type} (m : Model φ) (lem : List Char → List Char) (msg : PyMsg) :
    Option AnalyzedMsg :=
  match msg.text? with
  | none => none
  | some t =>
    match predict m lem t with
    | PredictResult.ok p => some ⟨msg, p.emotion, p.confidence, p.emoji⟩
    | PredictResult.fail _ => none

/-- The successfully analyzed messages of a conversation, in input order. -/
def analyzedList {φ : Type} (m : Model φ) (lem : List Char → List Char)
    (messages : List PyMsg) : List AnalyzedMsg :=
  messages.filterMap (analyzedOf m lem)

/-- First-occurrence-order deduplication: the key order of a Python dict
built by repeated insertion. -/
def firstDedup (es : List String) : List String :=
  es.foldl (fun a e => if e ∈ a then a else a ++ [e]) []

/-- Canonical form of the `emotion_counts` dict after counting `es`: keys in
first-occurrence order, each mapped to its number of occurrences. -/
def countsList (es : List String) : List (String × ℕ) :=
  (firstDedup es).map (fun k => (k, es.count k))

/-- A concrete model whose two reachable confidences (10.01 and 10.02)
average to a value needing a third decimal, exercising the rounding of
`average_confidence`. -/
def model6 : Model String :=
  { transform := fun s => Except.ok s
    predictLabel := fun _ => Except.ok "happiness"
    hasPredictProba := true
    predictProba := fun s =>
      if s = "joy" then Except.ok [1001 / 10000] else Except.ok [1002 / 10000]
    classes := ["happiness"] }

/-- Two-message conversation used with `model6`. -/
def msgs6 : List PyMsg :=
  [⟨"a", some (PyValue.str "joy")⟩, ⟨"b", some (PyValue.str "jolly")⟩]

/-- A concrete model classifying "wrath" as anger and everything else as
happiness, with certainty 1. -/
def model6w : Model String :=
  mkTestModel (fun s => if s = "wrath" then "anger" else "happiness") (fun _ => [1])
    ["anger", "happiness"]

/-- Three-message conversation used with `model6w`: happiness, anger,
happiness. -/
def msgs6w : List PyMsg :=
  [⟨"a", some (PyValue.str "joy")⟩, ⟨"b", some (PyValue.str "wrath")⟩,
   ⟨"c", some (PyValue.str "jolly")⟩]

/-!
## Theorems

One theorem (plus, where needed, a counterexample and a witness) per claim.
-/

/-- Claim C1, counterexample: the negation word "no" belongs to the exception
set `EMOTION_WORDS` and occurs as the sole token of the input "no", yet the
normalized output is empty — the filter `len(token) > 2` of `preprocess_text`
drops it before the lemmatization step, so no choice of lemmatizer can make
it survive.  This refutes the claim that every occurring exception-set word
appears in the normalized output. -/
theorem C1_counterexample :
    "no" ∈ EMOTION_WORDS ∧
    splitWords (cleanedText ("no".data)) = [['n', 'o']] ∧
    preprocess_text lemId (PyValue.str "no") = "" := by
  decide

/-- Claim C1, amended: every word of the negation exception set is excluded
from the effective stopword list, and every exception-set word of length
greater than 2 that occurs as a token of the cleaned input survives the
stopword/length filter of `preprocess_text`, reaching the output (as its
lemmatized form).  The two-letter word "no" is the single exception, dropped
by the `len(token) > 2` filter.  In particular normalization of
"I am not happy today" keeps the token "not". -/
theorem C1_amended (lem : List Char → List Char) (l : List Char) (w : String)
    (hw : w ∈ EMOTION_WORDS) (hlen : 2 < w.length)
    (htk : w.data ∈ splitWords (cleanedText l)) :
    w ∉ stop_words ∧ lem w.data ∈ preprocess_tokens lem l := by
  have hstop : w ∉ stop_words := by
    intro hmem
    have h2 := List.of_mem_filter (p := fun u => !(EMOTION_WORDS.contains u)) hmem
    rw [Bool.not_eq_true'] at h2
    exact absurd hw (by simpa using h2)
  refine ⟨hstop, ?_⟩
  unfold preprocess_tokens keptTokens
  refine List.mem_map_of_mem lem (List.mem_filter_of_mem htk ?_)
  have hmk : String.mk w.data = w := rfl
  have hlen2 : 2 < w.data.length := hlen
  have hc : stop_words.contains w = false := by simpa using hstop
  rw [hmk]
  simp only [Bool.and_eq_true, Bool.not_eq_true', decide_eq_true_eq]
  refine ⟨hc, hlen2⟩

/-- Claim C1, witness: concrete run on "I am not happy today". -/
theorem C1_witness :
    preprocess_text lemId (PyValue.str "I am not happy today") = "not happy today" ∧
    "not" ∉ stop_words ∧
    lemId "not".data ∈ preprocess_tokens lemId ("I am not happy today".data) := by
  refine ⟨by decide, ?_, ?_⟩
  · exact (C1_amended lemId ("I am not happy today".data) "not" (by decide) (by decide)
      (by decide)).1
  · exact (C1_amended lemId ("I am not happy today".data) "not" (by decide) (by decide)
      (by decide)).2

/-- Claim C3 (confirmed): whenever the raw input is not a string, or its
normalization is the empty string (in particular the empty input), `predict`
returns the failure dict with error exactly "Text is empty after
preprocessing" — and it does so for every model, i.e. no classification is
attempted.  Non-string input and the empty string both normalize to "". -/
theorem C3_empty_after_preprocessing {φ : Type} (m : Model φ)
    (lem : List Char → List Char) (x : PyValue)
    (h : preprocess_text lem x = "") :
    predict m lem x = PredictResult.fail "Text is empty after preprocessing" ∧
    preprocess_text lem PyValue.other = "" ∧
    preprocess_text lem (PyValue.str "") = "" := by
  refine ⟨by simp [predict, h], rfl, rfl⟩

/-- Claim C3, witness: the empty input under a concrete model. -/
theorem C3_witness :
    predict (mkTestModel (fun _ => "neutral") (fun _ => [1]) ["neutral"]) lemId
        (PyValue.str "") =
      PredictResult.fail "Text is empty after preprocessing" :=
  (C3_empty_after_preprocessing (mkTestModel (fun _ => "neutral") (fun _ => [1]) ["neutral"])
    lemId (PyValue.str "") (by decide)).1

/-- Claim C4 (confirmed): a batch of at most 50 texts yields exactly one
result per input, in input order, each equal to the independent `predict` of
that input (so one item's failure affects nothing else); a batch of more than
50 texts is rejected as a whole, for every model — no per-item prediction is
involved in the rejection. -/
theorem C4_predict_batch {φ : Type} (m : Model φ) (lem : List Char → List Char)
    (texts : List PyValue) :
    (texts.length ≤ 50 →
      predict_batch m lem texts = Except.ok (texts.map (predict m lem)) ∧
      ∃ rs, predict_batch m lem texts = Except.ok rs ∧
        rs.length = texts.length ∧
        ∀ i : ℕ, rs[i]? = (texts[i]?).map (predict m lem)) ∧
    (50 < texts.length →
      predict_batch m lem texts = Except.error "Maximum 50 texts allowed per batch") := by
  constructor
  · intro h
    have h50 : ¬ 50 < texts.length := by omega
    refine ⟨by simp [predict_batch, h50], texts.map (predict m lem),
      by simp [predict_batch, h50], by simp, fun i => ?_⟩
    simp [List.getElem?_map]
  · intro h
    simp [predict_batch, h]

/-- Claim C4, witness: 50 texts are all predicted in order, 51 are rejected. -/
theorem C4_witness :
    predict_batch (mkTestModel (fun _ => "neutral") (fun _ => [1]) ["neutral"]) lemId
        (List.replicate 51 (PyValue.str "fine")) =
      Except.error "Maximum 50 texts allowed per batch" ∧
    predict_batch (mkTestModel (fun _ => "neutral") (fun _ => [1]) ["neutral"]) lemId
        (List.replicate 50 (PyValue.str "fine")) =
      Except.ok (List.replicate 50
        (predict (mkTestModel (fun _ => "neutral") (fun _ => [1]) ["neutral"]) lemId
          (PyValue.str "fine"))) := by
  constructor
  · exact (C4_predict_batch _ lemId _).2 (by simp)
  · have h := ((C4_predict_batch (mkTestModel (fun _ => "neutral") (fun _ => [1]) ["neutral"])
      lemId (List.replicate 50 (PyValue.str "fine"))).1 (by simp)).1
    rw [h, List.map_replicate]

/-- Auxiliary: one `recordHistory` step from a state within capacity is a
`take 100` of the front-insertion. -/
theorem recordHistory_eq_take {α : Type} (h : List α) (e : α) (hlen : h.length ≤ 100) :
    recordHistory h e = (e :: h).take 100 := by
  unfold recordHistory
  by_cases hc : 100 < (e :: h).length
  · rw [if_pos hc, List.dropLast_eq_take]
    simp only [List.length_cons]
    congr 1
    simp only [List.length_cons] at hc
    omega
  · rw [if_neg hc, List.take_of_length_le]
    simp only [List.length_cons] at hc ⊢
    omega

/-- Auxiliary: `take n` commutes with appending onto a previously taken
tail. -/
theorem take_append_take {α : Type} (a b : List α) (n : ℕ) :
    (a ++ b.take n).take n = (a ++ b).take n := by
  rw [List.take_append_eq_append_take, List.take_append_eq_append_take, List.take_take]
  congr 1
  rw [min_eq_left (Nat.sub_le n a.length)]

/-- Auxiliary: folding `recordHistory` over a list of new entries from any
in-capacity state keeps the 100 most recent entries, most recent first. -/
theorem foldl_recordHistory {α : Type} (es : List α) (h : List α) (hlen : h.length ≤ 100) :
    es.foldl recordHistory h = (es.reverse ++ h).take 100 := by
  induction es generalizing h with
  | nil => simpa using (List.take_of_length_le hlen).symm
  | cons e es ih =>
    rw [List.foldl_cons, recordHistory_eq_take h e hlen]
    have hlen2 : ((e :: h).take 100).length ≤ 100 := by
      simp [List.length_take]
    rw [ih _ hlen2, take_append_take, List.reverse_cons, List.append_assoc]
    rfl

/-- Claim C5 (confirmed): from a history of at most 100 entries, recording
inserts at the front and the new state is the 100-entry front truncation, so
the length bound is preserved; folding records over any entry sequence keeps
exactly the (up to) 100 most recent entries in most-recent-first order, and
150 records from empty leave exactly 100 entries (the oldest 50 evicted). -/
theorem C5_history {α : Type} (h : List α) (e : α) (es : List α)
    (hlen : h.length ≤ 100) :
    (recordHistory h e).head? = some e ∧
    recordHistory h e = (e :: h).take 100 ∧
    (recordHistory h e).length ≤ 100 ∧
    recordAll es = es.reverse.take 100 ∧
    (es.length = 150 → (recordAll es).length = 100) := by
  have h1 := recordHistory_eq_take h e hlen
  have h4 : recordAll es = es.reverse.take 100 := by
    unfold recordAll
    simpa using foldl_recordHistory es [] (by simp)
  refine ⟨?_, h1, ?_, h4, ?_⟩
  · rw [h1]
    rfl
  · rw [h1]
    simp [List.length_take]
  · intro h150
    rw [h4]
    simp [List.length_take, h150]

/-- Claim C5, witness: 150 numbered records from empty. -/
theorem C5_witness :
    recordAll (List.range 150) = (List.range 150).reverse.take 100 ∧
    (recordAll (List.range 150)).length = 100 ∧
    (recordHistory ([] : List ℕ) 7).head? = some 7 ∧
    (recordAll (List.range 150)).head? = some 149 ∧
    ¬(49 ∈ recordAll (List.range 150)) := by
  have h := C5_history ([] : List ℕ) 7 (List.range 150) (by simp)
  exact ⟨h.2.2.2.1, h.2.2.2.2 (by simp), h.1, by decide, by decide⟩

/-- Claim C8 (confirmed): `predict` is a total function into
`PredictResult`, and every failure raised inside the pipeline is converted
into the `fail` result carrying the raised message: a failure of the feature
transformer, of label inference, of probability inference, and the
`ValueError` of `max` on an empty probability vector are each returned, not
propagated. -/
theorem C8_exceptions_converted {φ : Type} (m : Model φ) (lem : List Char → List Char)
    (x : PyValue) (hne : preprocess_text lem x ≠ "") :
    (∀ msg, m.transform (preprocess_text lem x) = Except.error msg →
      predict m lem x = PredictResult.fail msg) ∧
    (∀ v msg, m.transform (preprocess_text lem x) = Except.ok v →
      m.predictLabel v = Except.error msg →
      predict m lem x = PredictResult.fail msg) ∧
    (∀ v lbl msg, m.transform (preprocess_text lem x) = Except.ok v →
      m.predictLabel v = Except.ok lbl → m.hasPredictProba = true →
      m.predictProba v = Except.error msg →
      predict m lem x = PredictResult.fail msg) ∧
    (∀ v lbl, m.transform (preprocess_text lem x) = Except.ok v →
      m.predictLabel v = Except.ok lbl → m.hasPredictProba = true →
      m.predictProba v = Except.ok [] →
      predict m lem x = PredictResult.fail "max() arg is an empty sequence") := by
  refine ⟨fun msg h1 => ?_, fun v msg h1 h2 => ?_,
    fun v lbl msg h1 h2 h3 h4 => ?_, fun v lbl h1 h2 h3 h4 => ?_⟩
  · simp [predict, hne, h1]
  · simp [predict, hne, h1, h2]
  · simp [predict, hne, h1, h2, h3, h4]
  · simp [predict, hne, h1, h2, h3, h4, pymaxQ]

/-- Claim C8, witness: a transformer failure is returned as a failure
result. -/
theorem C8_witness :
    predict
        { transform := fun (_ : String) => (Except.error "transformer exploded" : Except String Unit)
          predictLabel := fun _ => Except.ok "neutral"
          hasPredictProba := true
          predictProba := fun _ => Except.ok [1]
          classes := ["neutral"] } lemId (PyValue.str "good day")
      = PredictResult.fail "transformer exploded" :=
  (C8_exceptions_converted _ lemId (PyValue.str "good day") (by decide)).1
    "transformer exploded" rfl

/-- Claim C9 (confirmed): when the pipeline succeeds but the predicted label
lies outside `EMOTION_CONFIG`, `predict` still returns a success result and
its metadata is the sentinel record: emoji "❓", color "#000000",
description "Unknown emotion", intensity "unknown".  Both classifier
variants (with and without probability support) behave this way. -/
theorem C9_unknown_label {φ : Type} (m : Model φ) (lem : List Char → List Char)
    (x : PyValue) (v : φ) (lbl : String)
    (hne : preprocess_text lem x ≠ "")
    (ht : m.transform (preprocess_text lem x) = Except.ok v)
    (hl : m.predictLabel v = Except.ok lbl)
    (hunk : EMOTION_CONFIG.find? (fun p => p.1 == lbl) = none) :
    (∀ ps q, m.hasPredictProba = true → m.predictProba v = Except.ok ps →
      pymaxQ ps = Except.ok q →
      ∃ pay, predict m lem x = PredictResult.ok pay ∧ pay.emotion = lbl ∧
        pay.emoji = "❓" ∧ pay.color = "#000000" ∧
        pay.description = "Unknown emotion" ∧ pay.intensity = "unknown") ∧
    (m.hasPredictProba = false →
      ∃ pay, predict m lem x = PredictResult.ok pay ∧ pay.emotion = lbl ∧
        pay.emoji = "❓" ∧ pay.color = "#000000" ∧
        pay.description = "Unknown emotion" ∧ pay.intensity = "unknown") := by
  have hcfg : configGet lbl = unknownDetails := by simp [configGet, hunk]
  constructor
  · intro ps q hp hps hq
    refine ⟨{ emotion := lbl
              confidence := pyRound2 (q * 100)
              emoji := "❓"
              color := "#000000"
              description := "Unknown emotion"
              intensity := "unknown"
              all_probabilities := ((sortProbsDesc (buildProbDict m.classes ps)).take 5).map
                (fun p => (p.1, pyRound2 (p.2 * 100)))
              processed_text := preprocess_text lem x
              original_text := x }, ?_, rfl, rfl, rfl, rfl, rfl⟩
    simp [predict, hne, ht, hl, hp, hps, hq, mkOk, hcfg, unknownDetails]
  · intro hp
    refine ⟨{ emotion := lbl
              confidence := pyRound2 (1 * 100)
              emoji := "❓"
              color := "#000000"
              description := "Unknown emotion"
              intensity := "unknown"
              all_probabilities := (([(lbl, (1 : ℚ))].take 5).map
                (fun p => (p.1, pyRound2 (p.2 * 100))))
              processed_text := preprocess_text lem x
              original_text := x }, ?_, rfl, rfl, rfl, rfl, rfl⟩
    simp [predict, hne, ht, hl, hp, mkOk, hcfg, unknownDetails]

/-- Claim C9, witness: a model emitting the out-of-enumeration label
"confused" still yields a success result with the sentinel metadata. -/
theorem C9_witness :
    ∃ pay, predict (mkTestModel (fun _ => "confused") (fun _ => [1]) ["confused"]) lemId
        (PyValue.str "good day") = PredictResult.ok pay ∧
      pay.emotion = "confused" ∧ pay.emoji = "❓" ∧ pay.color = "#000000" ∧
      pay.description = "Unknown emotion" ∧ pay.intensity = "unknown" :=
  (C9_unknown_label (mkTestModel (fun _ => "confused") (fun _ => [1]) ["confused"]) lemId
      (PyValue.str "good day") "good day" "confused" (by decide)
      (congrArg Except.ok (by decide)) rfl (by decide)).1 [1] 1 rfl rfl rfl

/-- Auxiliary: the fold computing Python `max` yields an element of the
list. -/
theorem foldl_max_mem {α : Type} [LinearOrder α] (x : α) (xs : List α) :
    xs.foldl max x ∈ x :: xs := by
  induction xs generalizing x with
  | nil => simp
  | cons y ys ih =>
    rw [List.foldl_cons]
    rcases List.mem_cons.mp (ih (max x y)) with h | h
    · rcases max_choice x y with hxy | hxy <;> rw [h, hxy] <;> simp
    · simp [List.mem_cons.mpr (Or.inr (List.mem_cons.mpr (Or.inr h)))]

/-- Auxiliary: the fold computing Python `max` bounds every element of the
list. -/
theorem le_foldl_max {α : Type} [LinearOrder α] (x : α) (xs : List α) :
    ∀ q ∈ x :: xs, q ≤ xs.foldl max x := by
  induction xs generalizing x with
  | nil => simp
  | cons y ys ih =>
    intro q hq
    rw [List.foldl_cons]
    rcases List.mem_cons.mp hq with rfl | hq2
    · exact le_trans (le_max_left q y) (ih (max q y) _ (List.mem_cons_self _ _))
    · rcases List.mem_cons.mp hq2 with rfl | h3
      · exact le_trans (le_max_right x q) (ih (max x q) _ (List.mem_cons_self _ _))
      · exact ih (max x y) q (List.mem_cons.mpr (Or.inr h3))

/-- Auxiliary: Python rounding moves a value by at most one half. -/
theorem pyRoundInt_bounds (x : ℚ) :
    x - 1 / 2 ≤ (pyRoundInt x : ℚ) ∧ (pyRoundInt x : ℚ) ≤ x + 1 / 2 := by
  have h0 : (⌊x⌋ : ℚ) ≤ x := Int.floor_le x
  have h1 : x < ⌊x⌋ + 1 := Int.lt_floor_add_one x
  unfold pyRoundInt
  by_cases hc1 : x - (⌊x⌋ : ℚ) < 1 / 2
  · rw [if_pos hc1]
    constructor <;> linarith
  · rw [if_neg hc1]
    by_cases hc2 : (1 : ℚ) / 2 < x - (⌊x⌋ : ℚ)
    · rw [if_pos hc2]
      constructor <;> push_cast <;> linarith
    · rw [if_neg hc2]
      have heq : x - (⌊x⌋ : ℚ) = 1 / 2 := le_antisymm (not_lt.mp hc2) (not_lt.mp hc1)
      by_cases hc3 : ⌊x⌋ % 2 = 0
      · rw [if_pos hc3]
        constructor <;> linarith
      · rw [if_neg hc3]
        constructor <;> push_cast <;> linarith

/-- Auxiliary: Python rounding to an integer is monotone. -/
theorem pyRoundInt_mono {x y : ℚ} (h : x ≤ y) : pyRoundInt x ≤ pyRoundInt y := by
  by_contra hlt
  push_neg at hlt
  have hcast : (pyRoundInt y : ℚ) + 1 ≤ (pyRoundInt x : ℚ) := by
    exact_mod_cast Int.add_one_le_iff.mpr hlt
  have b1 := (pyRoundInt_bounds x).2
  have b2 := (pyRoundInt_bounds y).1
  have hyx : y ≤ x := by linarith
  have hxy : x = y := le_antisymm h hyx
  rw [hxy] at hlt
  exact lt_irrefl _ hlt

/-- Auxiliary: Python rounding to two decimals is monotone. -/
theorem pyRound2_mono {x y : ℚ} (h : x ≤ y) : pyRound2 x ≤ pyRound2 y := by
  unfold pyRound2
  have hm := pyRoundInt_mono (mul_le_mul_of_nonneg_right h (by norm_num : (0 : ℚ) ≤ 100))
  have hc : (pyRoundInt (x * 100) : ℚ) ≤ (pyRoundInt (y * 100) : ℚ) := by exact_mod_cast hm
  linarith

/-- Claim C2 (confirmed): for every successful probabilistic prediction, the
reported confidence is the maximum of the classifier's probability vector
scaled by 100 and rounded to 2 decimals, and `all_probabilities` is the
5-entry prefix of the full distribution sorted in non-increasing probability
order (a permutation of the zip of classes and probabilities), each entry
scaled to a percentage and rounded to 2 decimals; the reported entries are
non-increasing in their probability component. -/
theorem C2_confidence_and_top5 {φ : Type} (m : Model φ) (lem : List Char → List Char)
    (x : PyValue) (v : φ) (lbl : String) (ps : List ℚ)
    (hne : preprocess_text lem x ≠ "")
    (ht : m.transform (preprocess_text lem x) = Except.ok v)
    (hl : m.predictLabel v = Except.ok lbl)
    (hp : m.hasPredictProba = true)
    (hps : m.predictProba v = Except.ok ps)
    (hnil : ps ≠ []) :
    ∃ pay mx,
      predict m lem x = PredictResult.ok pay ∧
      mx ∈ ps ∧ (∀ q ∈ ps, q ≤ mx) ∧
      pay.confidence = pyRound2 (mx * 100) ∧
      pay.all_probabilities =
        ((sortProbsDesc (buildProbDict m.classes ps)).take 5).map
          (fun p => (p.1, pyRound2 (p.2 * 100))) ∧
      (sortProbsDesc (buildProbDict m.classes ps)).Perm (buildProbDict m.classes ps) ∧
      List.Sorted (fun a b : String × ℚ => b.2 ≤ a.2) pay.all_probabilities := by
  obtain ⟨p0, ps', rfl⟩ := List.exists_cons_of_ne_nil hnil
  have hsorted : List.Sorted (fun a b : String × ℚ => b.2 ≤ a.2)
      (((sortProbsDesc (buildProbDict m.classes (p0 :: ps'))).take 5).map
        (fun p => (p.1, pyRound2 (p.2 * 100)))) := by
    have hs : List.Sorted probGE (sortProbsDesc (buildProbDict m.classes (p0 :: ps'))) :=
      List.sorted_insertionSort probGE _
    have hs5 : List.Sorted probGE ((sortProbsDesc (buildProbDict m.classes (p0 :: ps'))).take 5) :=
      List.Pairwise.sublist (List.take_sublist 5 _) hs
    refine List.Pairwise.map _ ?_ hs5
    intro a b hab
    exact pyRound2_mono (mul_le_mul_of_nonneg_right hab (by norm_num : (0 : ℚ) ≤ 100))
  refine ⟨{ emotion := lbl
            confidence := pyRound2 (ps'.foldl max p0 * 100)
            emoji := (configGet lbl).emoji
            color := (configGet lbl).color
            description := (configGet lbl).description
            intensity := (configGet lbl).intensity
            all_probabilities :=
              ((sortProbsDesc (buildProbDict m.classes (p0 :: ps'))).take 5).map
                (fun p => (p.1, pyRound2 (p.2 * 100)))
            processed_text := preprocess_text lem x
            original_text := x }, ps'.foldl max p0, ?_, foldl_max_mem p0 ps',
      le_foldl_max p0 ps', rfl, rfl, List.perm_insertionSort probGE _, hsorted⟩
  simp [predict, hne, ht, hl, hp, hps, pymaxQ, mkOk]

/-- Claim C2, witness: a concrete three-class distribution. -/
theorem C2_witness :
    ∃ pay mx,
      predict (mkTestModel (fun _ => "happiness") (fun _ => [1/2, 3/10, 1/5])
          ["happiness", "anger", "sadness"]) lemId (PyValue.str "good day") =
        PredictResult.ok pay ∧
      mx ∈ ([1/2, 3/10, 1/5] : List ℚ) ∧
      (∀ q ∈ ([1/2, 3/10, 1/5] : List ℚ), q ≤ mx) ∧
      pay.confidence = pyRound2 (mx * 100) ∧
      pay.all_probabilities =
        ((sortProbsDesc (buildProbDict ["happiness", "anger", "sadness"]
          [1/2, 3/10, 1/5])).take 5).map (fun p => (p.1, pyRound2 (p.2 * 100))) ∧
      (sortProbsDesc (buildProbDict ["happiness", "anger", "sadness"] [1/2, 3/10, 1/5])).Perm
        (buildProbDict ["happiness", "anger", "sadness"] [1/2, 3/10, 1/5]) ∧
      List.Sorted (fun a b : String × ℚ => b.2 ≤ a.2) pay.all_probabilities :=
  C2_confidence_and_top5 (mkTestModel (fun _ => "happiness") (fun _ => [1/2, 3/10, 1/5])
      ["happiness", "anger", "sadness"]) lemId (PyValue.str "good day") "good day" "happiness"
    [1/2, 3/10, 1/5] (by decide) (congrArg Except.ok (by decide)) rfl rfl rfl (by simp)

/-- Claim C10 (confirmed): the `dominant_emoji` of a conversation summary is
computed by the chained dict lookup with the neutral glyph "😐" as fallback:
for a dominant label outside `EMOTION_CONFIG` it is "😐" — not the "❓"
sentinel that per-prediction metadata uses — and for every known dominant
label it is that label's configured emoji. -/
theorem C10_dominant_emoji {φ : Type} (m : Model φ) (lem : List Char → List Char)
    (messages : List PyMsg) :
    (analyze_conversation m lem messages).dominant_emoji =
      dominantEmojiLookup (analyze_conversation m lem messages).dominant_emotion ∧
    (dictGet? EMOTION_CONFIG (analyze_conversation m lem messages).dominant_emotion = none →
      (analyze_conversation m lem messages).dominant_emoji = "😐" ∧
      (analyze_conversation m lem messages).dominant_emoji ≠ unknownDetails.emoji) ∧
    (∀ d, dictGet? EMOTION_CONFIG (analyze_conversation m lem messages).dominant_emotion
        = some d →
      (analyze_conversation m lem messages).dominant_emoji = d.emoji) := by
  have h1 : (analyze_conversation m lem messages).dominant_emoji =
      dominantEmojiLookup (analyze_conversation m lem messages).dominant_emotion := rfl
  refine ⟨h1, fun h => ?_, fun d h => ?_⟩
  · rw [h1]
    unfold dominantEmojiLookup
    rw [h]
    exact ⟨rfl, by decide⟩
  · rw [h1]
    unfold dominantEmojiLookup
    rw [h]

/-- Claim C10, witness: an out-of-enumeration dominant label yields "😐",
and the known label "happiness" yields its configured "😊". -/
theorem C10_witness :
    (analyze_conversation (mkTestModel (fun _ => "confused") (fun _ => [1]) ["confused"])
      lemId [⟨"u", some (PyValue.str "good day")⟩]).dominant_emotion = "confused" ∧
    (analyze_conversation (mkTestModel (fun _ => "confused") (fun _ => [1]) ["confused"])
      lemId [⟨"u", some (PyValue.str "good day")⟩]).dominant_emoji = "😐" ∧
    (analyze_conversation (mkTestModel (fun _ => "happiness") (fun _ => [1]) ["happiness"])
      lemId [⟨"u", some (PyValue.str "good day")⟩]).dominant_emoji = "😊" := by
  refine ⟨by decide, ?_, ?_⟩
  · exact ((C10_dominant_emoji (mkTestModel (fun _ => "confused") (fun _ => [1]) ["confused"])
      lemId [⟨"u", some (PyValue.str "good day")⟩]).2.1 (by decide)).1
  · exact (C10_dominant_emoji (mkTestModel (fun _ => "happiness") (fun _ => [1]) ["happiness"])
      lemId [⟨"u", some (PyValue.str "good day")⟩]).2.2
      ⟨"😊", "#FFD700", "Joyful, content, or pleased feeling", "positive"⟩ (by decide)

/-- Auxiliary: one loop iteration of `analyze_conversation`, expressed via
the per-message contribution. -/
theorem analyzeStep_eq {φ : Type} (m : Model φ) (lem : List Char → List Char)
    (acc : AnalyzeAcc) (msg : PyMsg) :
    analyzeStep m lem acc msg =
      match analyzedOf m lem msg with
      | none => acc
      | some a => ⟨acc.analyzed ++ [a], dictIncr acc.counts a.emotion,
          acc.total_confidence + a.confidence⟩ := by
  unfold analyzeStep analyzedOf
  cases msg.text? with
  | none => rfl
  | some t =>
    dsimp only
    cases predict m lem t with
    | ok p => rfl
    | fail e => rfl

/-- Auxiliary: the loop of `analyze_conversation` accumulates exactly the
successfully analyzed messages, their emotion counts and their total
confidence. -/
theorem analyze_foldl_spec {φ : Type} (m : Model φ) (lem : List Char → List Char)
    (messages : List PyMsg) (A : List AnalyzedMsg) (C : List (String × ℕ)) (T : ℚ) :
    messages.foldl (analyzeStep m lem) ⟨A, C, T⟩ =
      ⟨A ++ analyzedList m lem messages,
       ((analyzedList m lem messages).map AnalyzedMsg.emotion).foldl dictIncr C,
       T + ((analyzedList m lem messages).map AnalyzedMsg.confidence).sum⟩ := by
  induction messages generalizing A C T with
  | nil => simp [analyzedList]
  | cons msg msgs ih =>
    rw [List.foldl_cons, analyzeStep_eq]
    unfold analyzedList
    rw [List.filterMap_cons]
    cases h : analyzedOf m lem msg with
    | none =>
      simpa [analyzedList] using ih A C T
    | some a =>
      rw [ih]
      unfold analyzedList
      simp only [List.map_cons, List.foldl_cons, List.sum_cons, List.append_assoc,
        List.singleton_append, AnalyzeAcc.mk.injEq]
      refine ⟨trivial, trivial, by ring⟩

/-- Auxiliary: membership in the first-occurrence dedup fold. -/
theorem mem_firstDedup_fold (es : List String) (a : List String) (x : String) :
    x ∈ es.foldl (fun a e => if e ∈ a then a else a ++ [e]) a ↔ x ∈ a ∨ x ∈ es := by
  induction es generalizing a with
  | nil => simp
  | cons e es ih =>
    rw [List.foldl_cons, ih]
    by_cases he : e ∈ a
    · rw [if_pos he]
      constructor
      · rintro (h | h)
        · exact Or.inl h
        · exact Or.inr (List.mem_cons.mpr (Or.inr h))
      · rintro (h | h)
        · exact Or.inl h
        · rcases List.mem_cons.mp h with rfl | h2
          · exact Or.inl he
          · exact Or.inr h2
    · rw [if_neg he]
      simp only [List.mem_append, List.mem_singleton, List.mem_cons]
      tauto

/-- Auxiliary: `firstDedup` preserves membership. -/
theorem mem_firstDedup (es : List String) (x : String) :
    x ∈ firstDedup es ↔ x ∈ es := by
  simpa using mem_firstDedup_fold es [] x

/-- Auxiliary: appending one element to the input of `firstDedup`. -/
theorem firstDedup_concat (cs : List String) (e : String) :
    firstDedup (cs ++ [e]) =
      if e ∈ firstDedup cs then firstDedup cs else firstDedup cs ++ [e] := by
  unfold firstDedup
  rw [List.foldl_append]
  rfl

/-- Auxiliary: lookup in an association list built from a key list by a
value function. -/
theorem dictGet?_keyMap (ks : List String) (cnt : String → ℕ) (e : String) :
    dictGet? (ks.map (fun k => (k, cnt k))) e = if e ∈ ks then some (cnt e) else none := by
  induction ks with
  | nil => rfl
  | cons k ks ih =>
    rw [List.map_cons]
    unfold dictGet?
    rw [List.find?_cons]
    by_cases hk : k = e
    · subst hk
      simp
    · have hbeq : ((k, cnt k).1 == e) = false := by
        simpa using hk
      rw [hbeq]
      unfold dictGet? at ih
      rw [ih]
      by_cases hek : e ∈ ks
      · rw [if_pos hek, if_pos (List.mem_cons.mpr (Or.inr hek))]
      · have hnotc : e ∉ k :: ks := by
          intro h
          rcases List.mem_cons.mp h with h1 | h2
          · exact hk h1.symm
          · exact hek h2
        rw [if_neg hek, if_neg hnotc]

/-- Auxiliary: key presence test in an association list built from a key
list. -/
theorem any_keyMap (ks : List String) (cnt : String → ℕ) (e : String) :
    (ks.map (fun k => (k, cnt k))).any (fun p => p.1 == e) = decide (e ∈ ks) := by
  induction ks with
  | nil => rfl
  | cons k ks ih =>
    rw [List.map_cons, List.any_cons, ih]
    by_cases hk : k = e
    · subst hk
      simp
    · have hbeq : ((k, cnt k).1 == e) = false := by simpa using hk
      rw [hbeq]
      have hiff : (e ∈ k :: ks) ↔ (e ∈ ks) := by
        rw [List.mem_cons]
        exact ⟨fun h => h.elim (fun h1 => absurd h1.symm hk) id, Or.inr⟩
      simp [hiff]

/-- Auxiliary: one `dictIncr` step keeps the counts dict in canonical
form. -/
theorem dictIncr_countsList (cs : List String) (e : String) :
    dictIncr (countsList cs) e = countsList (cs ++ [e]) := by
  unfold dictIncr countsList dictSet
  rw [dictGet?_keyMap, any_keyMap, firstDedup_concat]
  by_cases he : e ∈ firstDedup cs
  · rw [if_pos he, if_pos he, decide_eq_true he]
    simp only [if_true, List.map_map]
    apply List.map_congr_left
    intro k _hk
    simp only [Function.comp_apply]
    by_cases hke : k = e
    · subst hke
      simp [List.count_append, List.count_cons]
    · have hek : e ≠ k := Ne.symm hke
      simp [List.count_append, List.count_cons, hke, hek]
  · rw [if_neg he, if_neg he, decide_eq_false he]
    simp only [Bool.false_eq_true, if_false, List.map_append, List.map_singleton]
    congr 1
    · apply List.map_congr_left
      intro k hk
      have hke : k ≠ e := fun h => he (h ▸ hk)
      have hek : e ≠ k := Ne.symm hke
      simp [List.count_append, List.count_cons, hke, hek]
    · have hecs : e ∉ cs := fun h => he ((mem_firstDedup cs e).mpr h)
      have hz : cs.count e = 0 := by
        simpa using List.count_eq_zero.mpr hecs
      simp [List.count_append, List.count_cons, hz]

/-- Auxiliary: folding `dictIncr` over occurrences yields the canonical
counts dict. -/
theorem foldl_dictIncr_countsList (es cs : List String) :
    es.foldl dictIncr (countsList cs) = countsList (cs ++ es) := by
  induction es generalizing cs with
  | nil => simp
  | cons e es ih =>
    rw [List.foldl_cons, dictIncr_countsList, ih (cs ++ [e]), List.append_assoc,
      List.singleton_append]

/-- Auxiliary: `pyMaxKey` returns the key of the first entry of maximal
value: the list decomposes around a maximal entry all of whose predecessors
are strictly smaller. -/
theorem pyMaxKey_first_max (p0 : String × ℕ) (ps : List (String × ℕ)) :
    ∃ pre q post, p0 :: ps = pre ++ q :: post ∧
      pyMaxKey p0 ps = q.1 ∧
      (∀ r ∈ pre, r.2 < q.2) ∧
      (∀ r ∈ p0 :: ps, r.2 ≤ q.2) := by
  induction ps generalizing p0 with
  | nil =>
    exact ⟨[], p0, [], rfl, rfl, by simp, by simp⟩
  | cons s ps ih =>
    have hfold : pyMaxKey p0 (s :: ps) = pyMaxKey (if p0.2 < s.2 then s else p0) ps := by
      unfold pyMaxKey
      rw [List.foldl_cons]
    by_cases h : p0.2 < s.2
    · rw [if_pos h] at hfold
      rcases ih s with ⟨pre, q, post, heq, hk, hpre, hall⟩
      have hs_le : s.2 ≤ q.2 := hall s (List.mem_cons_self _ _)
      refine ⟨p0 :: pre, q, post, ?_, by rw [hfold, hk], ?_, ?_⟩
      · rw [List.cons_append, heq]
      · intro r hr
        rcases List.mem_cons.mp hr with rfl | hr2
        · exact lt_of_lt_of_le h hs_le
        · exact hpre r hr2
      · intro r hr
        rcases List.mem_cons.mp hr with rfl | hr2
        · exact le_of_lt (lt_of_lt_of_le h hs_le)
        · exact hall r hr2
    · rw [if_neg h] at hfold
      rcases ih p0 with ⟨pre, q, post, heq, hk, hpre, hall⟩
      have hs_le : s.2 ≤ p0.2 := not_lt.mp h
      cases pre with
      | nil =>
        have hq : p0 = q := by
          have := congrArg (fun l => List.head? l) heq
          simpa using this
        have hpost : ps = post := by
          have := congrArg (fun l => List.tail l) heq
          simpa using this
        refine ⟨[], q, s :: post, ?_, by rw [hfold, hk], by simp, ?_⟩
        · rw [← hq, ← hpost]
          rfl
        · intro r hr
          rcases List.mem_cons.mp hr with rfl | hr2
          · exact hall r (List.mem_cons_self _ _)
          · rcases List.mem_cons.mp hr2 with rfl | hr3
            · rw [← hq]
              exact hs_le
            · exact hall r (List.mem_cons.mpr (Or.inr hr3))
      | cons pr pre2 =>
        have hp0 : p0 = pr := by
          have := congrArg (fun l => List.head? l) heq
          simpa using this
        have hps : ps = pre2 ++ q :: post := by
          have := congrArg (fun l => List.tail l) heq
          simpa using this
        refine ⟨p0 :: s :: pre2, q, post, ?_, by rw [hfold, hk], ?_, ?_⟩
        · rw [List.cons_append, List.cons_append, hps]
        · intro r hr
          have hp0lt : p0.2 < q.2 := by
            have := hpre pr (List.mem_cons_self _ _)
            rw [hp0]
            exact this
          rcases List.mem_cons.mp hr with rfl | hr2
          · exact hp0lt
          · rcases List.mem_cons.mp hr2 with rfl | hr3
            · exact lt_of_le_of_lt hs_le hp0lt
            · exact hpre r (List.mem_cons.mpr (Or.inr hr3))
        · intro r hr
          rcases List.mem_cons.mp hr with rfl | hr2
          · exact hall r (List.mem_cons_self _ _)
          · rcases List.mem_cons.mp hr2 with rfl | hr3
            · exact le_trans hs_le (hall p0 (List.mem_cons_self _ _))
            · exact hall r (by rw [hps] at hr3 ⊢; exact List.mem_cons.mpr (Or.inr hr3))

/-- Auxiliary: rounding zero gives zero. -/
theorem pyRound2_zero : pyRound2 0 = 0 := by
  norm_num [pyRound2, pyRoundInt]

/-- Claim C6, amended: `emotion_distribution` is the occurrence-count dict of
the successfully predicted labels, keys in first-occurrence (insertion)
order; `dominant_emotion` is the label of the first entry, in that order,
whose count is maximal (ties in favor of the earliest-inserted label), and
"neutral" when no prediction succeeded; `average_confidence` is the
arithmetic mean of the confidences of the successfully analyzed messages
ROUNDED TO 2 DECIMALS (the rounding is what the original claim omits), and 0
when there are none. -/
theorem C6_dominant_and_average {φ : Type} (m : Model φ) (lem : List Char → List Char)
    (messages : List PyMsg) :
    (analyze_conversation m lem messages).emotion_distribution =
      countsList ((analyzedList m lem messages).map AnalyzedMsg.emotion) ∧
    (analyzedList m lem messages = [] →
      (analyze_conversation m lem messages).dominant_emotion = "neutral" ∧
      (analyze_conversation m lem messages).average_confidence = 0) ∧
    (analyzedList m lem messages ≠ [] →
      (∃ pre q post,
        countsList ((analyzedList m lem messages).map AnalyzedMsg.emotion) =
          pre ++ q :: post ∧
        (analyze_conversation m lem messages).dominant_emotion = q.1 ∧
        q.2 = ((analyzedList m lem messages).map AnalyzedMsg.emotion).count q.1 ∧
        (∀ r ∈ pre, r.2 < q.2) ∧
        (∀ r ∈ countsList ((analyzedList m lem messages).map AnalyzedMsg.emotion),
          r.2 ≤ q.2)) ∧
      (analyze_conversation m lem messages).average_confidence =
        pyRound2 (((analyzedList m lem messages).map AnalyzedMsg.confidence).sum /
          ((analyzedList m lem messages).length : ℚ))) := by
  have hacc : messages.foldl (analyzeStep m lem) ⟨[], [], 0⟩ =
      AnalyzeAcc.mk (analyzedList m lem messages)
        (countsList ((analyzedList m lem messages).map AnalyzedMsg.emotion))
        (((analyzedList m lem messages).map AnalyzedMsg.confidence).sum) := by
    rw [analyze_foldl_spec]
    have hc : ((analyzedList m lem messages).map AnalyzedMsg.emotion).foldl dictIncr [] =
        countsList ((analyzedList m lem messages).map AnalyzedMsg.emotion) := by
      simpa using
        foldl_dictIncr_countsList ((analyzedList m lem messages).map AnalyzedMsg.emotion) []
    simp [hc]
  refine ⟨?_, fun hnil => ⟨?_, ?_⟩, fun hne => ⟨?_, ?_⟩⟩
  · simp only [analyze_conversation, hacc]
  · simp only [analyze_conversation, hacc, hnil]
    rfl
  · simp only [analyze_conversation, hacc, hnil]
    simpa using pyRound2_zero
  · have hcne : countsList ((analyzedList m lem messages).map AnalyzedMsg.emotion) ≠ [] := by
      obtain ⟨a, A, hA⟩ := List.exists_cons_of_ne_nil hne
      intro hc
      have hmem : a.emotion ∈ firstDedup ((analyzedList m lem messages).map AnalyzedMsg.emotion) := by
        rw [mem_firstDedup, hA]
        simp
      unfold countsList at hc
      rw [List.map_eq_nil_iff] at hc
      rw [hc] at hmem
      exact absurd hmem (List.not_mem_nil _)
    obtain ⟨p, ps, hps⟩ :=
      List.exists_cons_of_ne_nil hcne
    obtain ⟨pre, q, post, heq, hk, hpre, hall⟩ := pyMaxKey_first_max p ps
    have hdom : (analyze_conversation m lem messages).dominant_emotion = pyMaxKey p ps := by
      simp only [analyze_conversation, hacc, hps]
    refine ⟨pre, q, post, by rw [hps, heq], by rw [hdom, hk], ?_, hpre, ?_⟩
    · have hq_mem : q ∈ countsList ((analyzedList m lem messages).map AnalyzedMsg.emotion) := by
        rw [hps, heq]
        exact List.mem_append.mpr (Or.inr (List.mem_cons_self _ _))
      unfold countsList at hq_mem
      obtain ⟨k, _hk2, hqk⟩ := List.mem_map.mp hq_mem
      rw [← hqk]
    · intro r hr
      rw [hps] at hr
      exact hall r hr
  · simp only [analyze_conversation, hacc, hne]
    rfl

/-- Claim C6, counterexample: with two successful confidences 10.01 and
10.02 the arithmetic mean is 10.015 = 2003/200, but the returned
`average_confidence` is 10.02 = 501/50 — the code rounds the mean to 2
decimals (`round(avg_confidence, 2)`, app.py line 528), so the claim
"average_confidence equals the arithmetic mean" fails as stated. -/
theorem C6_counterexample :
    ((analyzedList model6 lemId msgs6).map AnalyzedMsg.confidence).sum /
        ((analyzedList model6 lemId msgs6).length : ℚ) = 2003 / 200 ∧
    (analyze_conversation model6 lemId msgs6).average_confidence = 501 / 50 ∧
    ((501 : ℚ) / 50) ≠ 2003 / 200 := by
  have hpre1 : preprocess_text lemId (PyValue.str "joy") = "joy" := by decide
  have hpre2 : preprocess_text lemId (PyValue.str "jolly") = "jolly" := by decide
  have h1 : predict model6 lemId (PyValue.str "joy") =
      PredictResult.ok
        { emotion := "happiness"
          confidence := 1001 / 100
          emoji := "😊"
          color := "#FFD700"
          description := "Joyful, content, or pleased feeling"
          intensity := "positive"
          all_probabilities := [("happiness", 1001 / 100)]
          processed_text := "joy"
          original_text := PyValue.str "joy" } := by
    simp +decide only [predict, model6, hpre1, mkOk, configGet, EMOTION_CONFIG,
      unknownDetails, sortProbsDesc, buildProbDict, dictSet, probGE, pymaxQ,
      List.insertionSort, List.orderedInsert, List.zip, List.zipWith, List.foldl,
      List.find?, List.map, List.any, List.take]
    norm_num [probGE, pyRound2, pyRoundInt, Payload.mk.injEq]
  have h2 : predict model6 lemId (PyValue.str "jolly") =
      PredictResult.ok
        { emotion := "happiness"
          confidence := 501 / 50
          emoji := "😊"
          color := "#FFD700"
          description := "Joyful, content, or pleased feeling"
          intensity := "positive"
          all_probabilities := [("happiness", 501 / 50)]
          processed_text := "jolly"
          original_text := PyValue.str "jolly" } := by
    simp +decide only [predict, model6, hpre2, mkOk, configGet, EMOTION_CONFIG,
      unknownDetails, sortProbsDesc, buildProbDict, dictSet, probGE, pymaxQ,
      List.insertionSort, List.orderedInsert, List.zip, List.zipWith, List.foldl,
      List.find?, List.map, List.any, List.take]
    norm_num [probGE, pyRound2, pyRoundInt, Payload.mk.injEq]
  have hA : analyzedList model6 lemId msgs6 =
      [⟨⟨"a", some (PyValue.str "joy")⟩, "happiness", 1001 / 100, "😊"⟩,
       ⟨⟨"b", some (PyValue.str "jolly")⟩, "happiness", 501 / 50, "😊"⟩] := by
    simp [analyzedList, analyzedOf, msgs6, h1, h2]
  refine ⟨?_, ?_, by norm_num⟩
  · rw [hA]
    norm_num
  · have hacc := analyze_foldl_spec model6 lemId msgs6 [] [] 0
    rw [hA] at hacc
    simp only [analyze_conversation, msgs6] at hacc ⊢
    rw [hacc]
    simp
    norm_num [pyRound2, pyRoundInt]

/-- Claim C6, witness: three messages classified happiness, anger, happiness
give dominant label of maximal count in first-occurrence order and the
rounded mean confidence. -/
theorem C6_witness :
    (∃ pre q post,
      countsList ((analyzedList model6w lemId msgs6w).map AnalyzedMsg.emotion) =
        pre ++ q :: post ∧
      (analyze_conversation model6w lemId msgs6w).dominant_emotion = q.1 ∧
      q.2 = ((analyzedList model6w lemId msgs6w).map AnalyzedMsg.emotion).count q.1 ∧
      (∀ r ∈ pre, r.2 < q.2) ∧
      (∀ r ∈ countsList ((analyzedList model6w lemId msgs6w).map AnalyzedMsg.emotion),
        r.2 ≤ q.2)) ∧
    (analyze_conversation model6w lemId msgs6w).average_confidence =
      pyRound2 (((analyzedList model6w lemId msgs6w).map AnalyzedMsg.confidence).sum /
        ((analyzedList model6w lemId msgs6w).length : ℚ)) :=
  (C6_dominant_and_average model6w lemId msgs6w).2.2 (by decide)

/-- Auxiliary: ASCII lowercasing is idempotent. -/
theorem pyToLower_idem (c : Char) : pyToLower (pyToLower c) = pyToLower c := by
  rcases h : asciiUpper.find? (fun p => p.1 == c) with _ | p
  · have h1 : pyToLower c = c := by simp [pyToLower, h]
    rw [h1, h1]
  · have h1 : pyToLower c = p.2 := by simp [pyToLower, h]
    have hp : p ∈ asciiUpper := List.mem_of_find?_eq_some h
    rw [h1]
    fin_cases hp <;> decide

/-- Auxiliary: URL stripping only deletes characters. -/
theorem mem_stripUrlsAux (n : ℕ) (l : List Char) (c : Char) (h : c ∈ stripUrlsAux n l) :
    c ∈ l := by
  induction l generalizing n with
  | nil => simpa [stripUrlsAux] using h
  | cons d cs ih =>
    cases n with
    | succ n => exact List.mem_cons.mpr (Or.inr (ih n h))
    | zero =>
      rw [stripUrlsAux] at h
      rcases hm : matchUrlLen (d :: cs) with _ | k
      · rw [hm] at h
        rcases List.mem_cons.mp h with rfl | h2
        · exact List.mem_cons_self _ _
        · exact List.mem_cons.mpr (Or.inr (ih 0 h2))
      · rw [hm] at h
        exact List.mem_cons.mpr (Or.inr (ih (k - 1) h))

/-- Auxiliary: mention/hashtag stripping only deletes characters. -/
theorem mem_stripMentionsAux (n : ℕ) (l : List Char) (c : Char)
    (h : c ∈ stripMentionsAux n l) : c ∈ l := by
  induction l generalizing n with
  | nil => simpa [stripMentionsAux] using h
  | cons d cs ih =>
    cases n with
    | succ n => exact List.mem_cons.mpr (Or.inr (ih n h))
    | zero =>
      rw [stripMentionsAux] at h
      by_cases hd : (d = '@' || d = '#') = true
      · rw [if_pos hd] at h
        by_cases hk : 0 < (cs.takeWhile isWordChar).length
        · rw [if_pos hk] at h
          exact List.mem_cons.mpr (Or.inr (ih _ h))
        · rw [if_neg hk] at h
          rcases List.mem_cons.mp h with rfl | h2
          · exact List.mem_cons_self _ _
          · exact List.mem_cons.mpr (Or.inr (ih 0 h2))
      · rw [if_neg hd] at h
        rcases List.mem_cons.mp h with rfl | h2
        · exact List.mem_cons_self _ _
        · exact List.mem_cons.mpr (Or.inr (ih 0 h2))

/-- Auxiliary: characters of the whitespace-collapsed text are the collapse
space or non-space characters of the input. -/
theorem mem_collapseAux (b : Bool) (l : List Char) (c : Char) (h : c ∈ collapseAux b l) :
    c = ' ' ∨ (c ∈ l ∧ pyIsSpace c = false) := by
  induction l generalizing b with
  | nil => simpa [collapseAux] using h
  | cons d cs ih =>
    rw [collapseAux] at h
    by_cases hd : pyIsSpace d = true
    · rw [if_pos hd] at h
      cases b with
      | true =>
        rcases ih true h with h2 | ⟨h2, h3⟩
        · exact Or.inl h2
        · exact Or.inr ⟨List.mem_cons.mpr (Or.inr h2), h3⟩
      | false =>
        rcases List.mem_cons.mp h with rfl | h2
        · exact Or.inl rfl
        · rcases ih true h2 with h3 | ⟨h3, h4⟩
          · exact Or.inl h3
          · exact Or.inr ⟨List.mem_cons.mpr (Or.inr h3), h4⟩
    · rw [if_neg hd] at h
      rcases List.mem_cons.mp h with rfl | h2
      · exact Or.inr ⟨List.mem_cons_self _ _, by simpa using hd⟩
      · rcases ih false h2 with h3 | ⟨h3, h4⟩
        · exact Or.inl h3
        · exact Or.inr ⟨List.mem_cons.mpr (Or.inr h3), h4⟩

/-- Auxiliary: stripping only deletes characters. -/
theorem mem_pyStrip (l : List Char) (c : Char) (h : c ∈ pyStrip l) : c ∈ l := by
  unfold pyStrip at h
  rw [List.mem_reverse] at h
  have h2 := (List.dropWhile_sublist pyIsSpace).subset h
  rw [List.mem_reverse] at h2
  exact (List.dropWhile_sublist pyIsSpace).subset h2

/-- Auxiliary: every character of the cleaned text is either a lowercasing
fixpoint letter or the single space. -/
theorem cleanedText_chars (l : List Char) (c : Char) (hc : c ∈ cleanedText l) :
    (c.isAlpha = true ∨ c = ' ') ∧ pyToLower c = c := by
  unfold cleanedText at hc
  have h1 := mem_pyStrip _ _ hc
  unfold collapseSpaces at h1
  rcases mem_collapseAux _ _ _ h1 with rfl | ⟨h2, hsp⟩
  · exact ⟨Or.inr rfl, by decide⟩
  · unfold keepAlphaSpace at h2
    have h3 := List.mem_filter.mp h2
    have h4 := mem_stripMentionsAux 0 _ _ (by simpa [stripMentions] using h3.1)
    have h5 := mem_stripUrlsAux 0 _ _ (by simpa [stripUrls] using h4)
    obtain ⟨c0, _hc0, rfl⟩ := List.mem_map.mp h5
    constructor
    · rcases (Bool.or_eq_true _ _).mp h3.2 with ha | hs
      · exact Or.inl ha
      · rw [hs] at hsp
        exact absurd hsp (by simp)
    · exact pyToLower_idem c0

/-- Auxiliary: tokens produced by the tokenizer worker are nonempty and
consist of non-whitespace input characters (or carried accumulator
characters). -/
theorem splitWordsAux_props (l : List Char) (acc : List Char)
    (hacc : ∀ c ∈ acc, pyIsSpace c = false)
    (t : List Char) (ht : t ∈ splitWordsAux acc l) :
    t ≠ [] ∧ ∀ c ∈ t, pyIsSpace c = false ∧ (c ∈ acc ∨ c ∈ l) := by
  induction l generalizing acc with
  | nil =>
    rw [splitWordsAux] at ht
    by_cases ha : acc = []
    · rw [if_pos ha] at ht
      exact absurd ht (List.not_mem_nil t)
    · rw [if_neg ha] at ht
      rcases List.mem_singleton.mp ht with rfl
      refine ⟨by simpa using ha, ?_⟩
      intro c hcr
      rw [List.mem_reverse] at hcr
      exact ⟨hacc c hcr, Or.inl hcr⟩
  | cons d cs ih =>
    rw [splitWordsAux] at ht
    by_cases hd : pyIsSpace d = true
    · rw [if_pos hd] at ht
      by_cases ha : acc = []
      · rw [if_pos ha] at ht
        obtain ⟨hne, hprops⟩ := ih [] (by simp) ht
        refine ⟨hne, fun c hc => ?_⟩
        obtain ⟨hsp, hmem⟩ := hprops c hc
        rcases hmem with h2 | h2
        · exact absurd h2 (List.not_mem_nil c)
        · exact ⟨hsp, Or.inr (List.mem_cons.mpr (Or.inr h2))⟩
      · rw [if_neg ha] at ht
        rcases List.mem_cons.mp ht with rfl | ht2
        · refine ⟨by simpa using ha, ?_⟩
          intro c hcr
          rw [List.mem_reverse] at hcr
          exact ⟨hacc c hcr, Or.inl hcr⟩
        · obtain ⟨hne, hprops⟩ := ih [] (by simp) ht2
          refine ⟨hne, fun c hc => ?_⟩
          obtain ⟨hsp, hmem⟩ := hprops c hc
          rcases hmem with h2 | h2
          · exact absurd h2 (List.not_mem_nil c)
          · exact ⟨hsp, Or.inr (List.mem_cons.mpr (Or.inr h2))⟩
    · rw [if_neg hd] at ht
      have hacc2 : ∀ c ∈ d :: acc, pyIsSpace c = false := by
        intro c hc
        rcases List.mem_cons.mp hc with rfl | h2
        · simpa using hd
        · exact hacc c h2
      obtain ⟨hne, hprops⟩ := ih (d :: acc) hacc2 ht
      refine ⟨hne, fun c hc => ?_⟩
      obtain ⟨hsp, hmem⟩ := hprops c hc
      refine ⟨hsp, ?_⟩
      rcases hmem with h2 | h2
      · rcases List.mem_cons.mp h2 with rfl | h3
        · exact Or.inr (List.mem_cons_self _ _)
        · exact Or.inl h3
      · exact Or.inr (List.mem_cons.mpr (Or.inr h2))

/-- Auxiliary: mention/hashtag stripping is inert on text free of '@' and
'#'. -/
theorem stripMentionsAux_inert (l : List Char) (h : ∀ c ∈ l, c ≠ '@' ∧ c ≠ '#') :
    stripMentionsAux 0 l = l := by
  induction l with
  | nil => rfl
  | cons d cs ih =>
    rw [stripMentionsAux]
    have hd1 := (h d (List.mem_cons_self _ _)).1
    have hd2 := (h d (List.mem_cons_self _ _)).2
    rw [if_neg (by simp [hd1, hd2])]
    rw [ih (fun c hc => h c (List.mem_cons.mpr (Or.inr hc)))]

/-- Auxiliary: prepending a run of non-space characters commutes with
whitespace collapsing. -/
theorem collapseAux_false_append (t r : List Char) (ht : ∀ c ∈ t, pyIsSpace c = false) :
    collapseAux false (t ++ r) = t ++ collapseAux false r := by
  induction t with
  | nil => rfl
  | cons c cs ih =>
    rw [List.cons_append, collapseAux, if_neg (by simp [ht c (List.mem_cons_self _ _)])]
    rw [ih (fun c2 hc => ht c2 (List.mem_cons.mpr (Or.inr hc)))]
    rfl

/-- Auxiliary: the collapse flag is irrelevant when the text starts with a
non-space character. -/
theorem collapseAux_true_of_head (l : List Char)
    (h : ∀ c, l.head? = some c → pyIsSpace c = false) :
    collapseAux true l = collapseAux false l := by
  cases l with
  | nil => rfl
  | cons c cs =>
    have hc := h c rfl
    rw [collapseAux, collapseAux, if_neg (by simp [hc]), if_neg (by simp [hc])]

/-- Auxiliary: the join of a nonempty token list starts with the first
token. -/
theorem joinTokens_cons (t : List Char) (ts : List (List Char)) :
    ∃ r, joinTokens (t :: ts) = t ++ r := by
  cases ts with
  | nil => exact ⟨[], by simp [joinTokens]⟩
  | cons t2 ts' => exact ⟨' ' :: joinTokens (t2 :: ts'), rfl⟩

/-- Auxiliary: the join of well-formed tokens is nonempty iff the token list
is. -/
theorem joinTokens_ne_nil (t : List Char) (ts : List (List Char)) (ht : t ≠ []) :
    joinTokens (t :: ts) ≠ [] := by
  obtain ⟨r, hr⟩ := joinTokens_cons t ts
  rw [hr]
  intro hcontra
  rcases List.append_eq_nil.mp hcontra with ⟨h1, _⟩
  exact ht h1

/-- Auxiliary: the join of well-formed tokens never starts with
whitespace. -/
theorem joinTokens_head_nonspace (ts : List (List Char))
    (hts : ∀ t ∈ ts, t ≠ [] ∧ ∀ c ∈ t, pyIsSpace c = false) :
    ∀ c, (joinTokens ts).head? = some c → pyIsSpace c = false := by
  intro c hc
  cases ts with
  | nil => simp [joinTokens] at hc
  | cons t ts' =>
    obtain ⟨hne, hchars⟩ := hts t (List.mem_cons_self _ _)
    obtain ⟨r, hr⟩ := joinTokens_cons t ts'
    rw [hr] at hc
    cases t with
    | nil => exact absurd rfl hne
    | cons d t' =>
      rw [List.cons_append] at hc
      simp only [List.head?_cons, Option.some.injEq] at hc
      rw [← hc]
      exact hchars d (List.mem_cons_self _ _)

/-- Auxiliary: the join of well-formed tokens never ends with whitespace. -/
theorem joinTokens_last_nonspace (ts : List (List Char))
    (hts : ∀ t ∈ ts, t ≠ [] ∧ ∀ c ∈ t, pyIsSpace c = false) :
    ∀ c, (joinTokens ts).getLast? = some c → pyIsSpace c = false := by
  induction ts with
  | nil =>
    intro c hc
    simp [joinTokens] at hc
  | cons t ts' ih =>
    intro c hc
    obtain ⟨hne, hchars⟩ := hts t (List.mem_cons_self _ _)
    cases ts' with
    | nil =>
      simp only [joinTokens] at hc
      exact hchars c (List.mem_of_mem_getLast? hc)
    | cons t2 ts'' =>
      simp only [joinTokens] at hc
      have hne2 : joinTokens (t2 :: ts'') ≠ [] :=
        joinTokens_ne_nil t2 ts'' (hts t2 (List.mem_cons.mpr (Or.inr (List.mem_cons_self _ _)))).1
      rw [List.getLast?_append_of_ne_nil t (by simp : (' ' :: joinTokens (t2 :: ts'')) ≠ [])]
        at hc
      have hlast : (' ' :: joinTokens (t2 :: ts'')).getLast? =
          (joinTokens (t2 :: ts'')).getLast? := by
        cases hj : joinTokens (t2 :: ts'') with
        | nil => exact absurd hj hne2
        | cons a as => rw [List.getLast?_cons_cons]
      rw [hlast] at hc
      exact ih (fun u hu => hts u (List.mem_cons.mpr (Or.inr hu))) c hc

/-- Auxiliary: consuming a run of non-space characters into the tokenizer
accumulator. -/
theorem splitWordsAux_token_append (t : List Char) (acc r : List Char)
    (ht : ∀ c ∈ t, pyIsSpace c = false) :
    splitWordsAux acc (t ++ r) = splitWordsAux (t.reverse ++ acc) r := by
  induction t generalizing acc with
  | nil => simp
  | cons c t' ih =>
    rw [List.cons_append, splitWordsAux, if_neg (by simp [ht c (List.mem_cons_self _ _)])]
    rw [ih (c :: acc) (fun d hd => ht d (List.mem_cons.mpr (Or.inr hd)))]
    congr 1
    rw [List.reverse_cons, List.append_assoc]
    rfl

/-- Auxiliary: tokenizing the join of well-formed tokens recovers exactly
the tokens. -/
theorem splitWords_joinTokens (ts : List (List Char))
    (hts : ∀ t ∈ ts, t ≠ [] ∧ ∀ c ∈ t, pyIsSpace c = false) :
    splitWords (joinTokens ts) = ts := by
  unfold splitWords
  revert hts
  induction ts with
  | nil => intro _; rfl
  | cons t ts' ih =>
    intro hts
    obtain ⟨hne, hchars⟩ := hts t (List.mem_cons_self _ _)
    have hrev : t.reverse ≠ [] := by simpa using hne
    cases ts' with
    | nil =>
      have h0 : joinTokens [t] = t ++ [] := by simp [joinTokens]
      rw [h0, splitWordsAux_token_append t [] [] hchars, splitWordsAux,
        if_neg (by simpa using hrev)]
      simp
    | cons t2 ts'' =>
      have h0 : joinTokens (t :: t2 :: ts'') = t ++ ' ' :: joinTokens (t2 :: ts'') := rfl
      rw [h0, splitWordsAux_token_append t [] (' ' :: joinTokens (t2 :: ts'')) hchars,
        splitWordsAux, if_pos (by decide), if_neg (by simpa using hrev)]
      rw [ih (fun u hu => hts u (List.mem_cons.mpr (Or.inr hu)))]
      simp

/-- Auxiliary: `dropWhile` is inert when the head fails the predicate. -/
theorem dropWhile_eq_self_of_head (p : Char → Bool) (l : List Char)
    (h : ∀ c, l.head? = some c → p c = false) : l.dropWhile p = l := by
  cases l with
  | nil => rfl
  | cons c cs => rw [List.dropWhile_cons_of_neg (by simp [h c rfl])]

/-- Auxiliary: stripping is inert on text with non-space ends. -/
theorem pyStrip_inert (l : List Char)
    (hhead : ∀ c, l.head? = some c → pyIsSpace c = false)
    (hlast : ∀ c, l.getLast? = some c → pyIsSpace c = false) :
    pyStrip l = l := by
  unfold pyStrip
  rw [dropWhile_eq_self_of_head pyIsSpace l hhead]
  rw [dropWhile_eq_self_of_head pyIsSpace l.reverse
    (fun c hc => hlast c (by rwa [List.head?_reverse] at hc))]
  exact List.reverse_reverse l

/-- Auxiliary: whitespace collapsing is inert on the join of well-formed
tokens. -/
theorem collapseSpaces_joinTokens (ts : List (List Char))
    (hts : ∀ t ∈ ts, t ≠ [] ∧ ∀ c ∈ t, pyIsSpace c = false) :
    collapseSpaces (joinTokens ts) = joinTokens ts := by
  unfold collapseSpaces
  revert hts
  induction ts with
  | nil => intro _; rfl
  | cons t ts' ih =>
    intro hts
    obtain ⟨hne, hchars⟩ := hts t (List.mem_cons_self _ _)
    cases ts' with
    | nil =>
      have h0 : joinTokens [t] = t ++ [] := by simp [joinTokens]
      rw [h0, collapseAux_false_append t [] hchars]
      rfl
    | cons t2 ts'' =>
      have h0 : joinTokens (t :: t2 :: ts'') = t ++ ' ' :: joinTokens (t2 :: ts'') := rfl
      rw [h0, collapseAux_false_append t _ hchars, collapseAux, if_pos (by decide)]
      have hflag := collapseAux_true_of_head (joinTokens (t2 :: ts''))
        (joinTokens_head_nonspace (t2 :: ts'')
          (fun u hu => hts u (List.mem_cons.mpr (Or.inr hu))))
      rw [if_neg (by simp), hflag,
        ih (fun u hu => hts u (List.mem_cons.mpr (Or.inr hu)))]

/-- Auxiliary: characters of a token join are token characters or the
separating space. -/
theorem mem_joinTokens (ts : List (List Char)) (c : Char) (hc : c ∈ joinTokens ts) :
    c = ' ' ∨ ∃ t ∈ ts, c ∈ t := by
  induction ts with
  | nil => simp [joinTokens] at hc
  | cons t ts' ih =>
    cases ts' with
    | nil =>
      simp only [joinTokens] at hc
      exact Or.inr ⟨t, List.mem_cons_self _ _, hc⟩
    | cons t2 ts'' =>
      simp only [joinTokens] at hc
      rcases List.mem_append.mp hc with h | h
      · exact Or.inr ⟨t, List.mem_cons_self _ _, h⟩
      · rcases List.mem_cons.mp h with rfl | h2
        · exact Or.inl rfl
        · rcases ih h2 with h3 | ⟨u, hu, hcu⟩
          · exact Or.inl h3
          · exact Or.inr ⟨u, List.mem_cons.mpr (Or.inr hu), hcu⟩

/-- Claim C7, amended: normalization is idempotent at every input whose
normalized output is inert under the URL-stripping step (no "http"/"www"
fragment reconstituted by the punctuation removal survives in the output),
with the external lemmatizer fixing tokens; it is NOT idempotent in general
— see the counterexample, where `[^a-zA-Z\s]` removal manufactures "httpx"
from "ht2tpx", which a second pass deletes as a URL. -/
theorem C7_amended (lem : List Char → List Char) (hlem : ∀ t, lem t = t) (x : PyValue)
    (hurl : stripUrls ((preprocess_text lem x).data) = (preprocess_text lem x).data) :
    preprocess_text lem (PyValue.str (preprocess_text lem x)) = preprocess_text lem x := by
  cases x with
  | other =>
    show preprocess_text lem (PyValue.str "") = ""
    rfl
  | str s =>
    have hmap : preprocess_tokens lem s.data = keptTokens s.data := by
      unfold preprocess_tokens
      rw [List.map_congr_left (fun t _ => hlem t), List.map_id']
    have htok : ∀ t ∈ keptTokens s.data, t ≠ [] ∧ ∀ c ∈ t, pyIsSpace c = false := by
      intro t ht
      have hsplit : t ∈ splitWords (cleanedText s.data) := List.mem_of_mem_filter ht
      unfold splitWords at hsplit
      obtain ⟨hne, hprops⟩ := splitWordsAux_props _ [] (by simp) t hsplit
      exact ⟨hne, fun c hc => (hprops c hc).1⟩
    have htokchars : ∀ t ∈ keptTokens s.data, ∀ c ∈ t,
        c.isAlpha = true ∧ pyToLower c = c := by
      intro t ht c hc
      have hsplit : t ∈ splitWords (cleanedText s.data) := List.mem_of_mem_filter ht
      unfold splitWords at hsplit
      obtain ⟨_, hprops⟩ := splitWordsAux_props _ [] (by simp) t hsplit
      have hcmem : c ∈ cleanedText s.data := by
        rcases (hprops c hc).2 with h2 | h2
        · exact absurd h2 (List.not_mem_nil c)
        · exact h2
      obtain ⟨halpha, hlow⟩ := cleanedText_chars s.data c hcmem
      have hnsp : pyIsSpace c = false := (hprops c hc).1
      rcases halpha with ha | ha
      · exact ⟨ha, hlow⟩
      · rw [ha] at hnsp
        exact absurd hnsp (by simp [pyIsSpace])
    have hchars_join : ∀ c ∈ joinTokens (keptTokens s.data),
        (c = ' ' ∨ c.isAlpha = true) ∧ pyToLower c = c := by
      intro c hc
      rcases mem_joinTokens _ c hc with rfl | ⟨t, ht, hct⟩
      · exact ⟨Or.inl rfl, by decide⟩
      · obtain ⟨ha, hl⟩ := htokchars t ht c hct
        exact ⟨Or.inr ha, hl⟩
    have hurl2 : stripUrls (joinTokens (keptTokens s.data)) = joinTokens (keptTokens s.data) := by
      have : (preprocess_text lem (PyValue.str s)).data =
          joinTokens (keptTokens s.data) := by
        show (String.mk (joinTokens (preprocess_tokens lem s.data))).data = _
        rw [hmap]
      rw [this] at hurl
      exact hurl
    have hcore : preprocess_tokens lem (joinTokens (keptTokens s.data)) =
        keptTokens s.data := by
      have hlower : (joinTokens (keptTokens s.data)).map pyToLower =
          joinTokens (keptTokens s.data) := by
        rw [List.map_congr_left (fun c hc => (hchars_join c hc).2), List.map_id']
      have hment : stripMentions (joinTokens (keptTokens s.data)) =
          joinTokens (keptTokens s.data) := by
        unfold stripMentions
        apply stripMentionsAux_inert
        intro c hc
        rcases (hchars_join c hc).1 with rfl | ha
        · exact ⟨by decide, by decide⟩
        · constructor
          · intro heq
            rw [heq] at ha
            exact absurd ha (by decide)
          · intro heq
            rw [heq] at ha
            exact absurd ha (by decide)
      have hkeep : keepAlphaSpace (joinTokens (keptTokens s.data)) =
          joinTokens (keptTokens s.data) := by
        unfold keepAlphaSpace
        rw [List.filter_eq_self]
        intro c hc
        rcases (hchars_join c hc).1 with rfl | ha
        · simp [pyIsSpace]
        · simp [ha]
      have hcollapse : collapseSpaces (joinTokens (keptTokens s.data)) =
          joinTokens (keptTokens s.data) := collapseSpaces_joinTokens _ htok
      have hstrip : pyStrip (joinTokens (keptTokens s.data)) =
          joinTokens (keptTokens s.data) :=
        pyStrip_inert _ (joinTokens_head_nonspace _ htok) (joinTokens_last_nonspace _ htok)
      have hclean : cleanedText (joinTokens (keptTokens s.data)) =
          joinTokens (keptTokens s.data) := by
        unfold cleanedText
        rw [hlower, hurl2, hment, hkeep, hcollapse, hstrip]
      have hkept : keptTokens (joinTokens (keptTokens s.data)) = keptTokens s.data := by
        show (splitWords (cleanedText (joinTokens (keptTokens s.data)))).filter
            (fun tk => !(stop_words.contains (String.mk tk)) && decide (2 < tk.length)) =
          keptTokens s.data
        rw [hclean, splitWords_joinTokens _ htok, List.filter_eq_self]
        intro t ht
        have ht2 : t ∈ (splitWords (cleanedText s.data)).filter
            (fun tk => !(stop_words.contains (String.mk tk)) && decide (2 < tk.length)) := ht
        exact List.of_mem_filter
          (p := fun tk => !(stop_words.contains (String.mk tk)) && decide (2 < tk.length)) ht2
      show (keptTokens (joinTokens (keptTokens s.data))).map lem = keptTokens s.data
      rw [hkept, List.map_congr_left (fun t _ => hlem t), List.map_id']
    show String.mk (joinTokens (preprocess_tokens lem
        (String.mk (joinTokens (preprocess_tokens lem s.data))).data)) =
      String.mk (joinTokens (preprocess_tokens lem s.data))
    rw [hmap]
    show String.mk (joinTokens (preprocess_tokens lem (joinTokens (keptTokens s.data)))) = _
    rw [hcore]

/-- Claim C7, counterexample: normalization is not idempotent.  The
punctuation-removal step turns "ht2tpx" into the token "httpx", which the
URL-stripping regex `http\S+` deletes entirely on a second pass:
normalize("ht2tpx") = "httpx" but normalize("httpx") = "". -/
theorem C7_counterexample :
    preprocess_text lemId (PyValue.str (preprocess_text lemId (PyValue.str "ht2tpx"))) ≠
      preprocess_text lemId (PyValue.str "ht2tpx") := by
  decide

/-- Claim C7, witness: idempotence on a URL-free concrete input. -/
theorem C7_witness :
    preprocess_text lemId
        (PyValue.str (preprocess_text lemId (PyValue.str "I am not happy today"))) =
      preprocess_text lemId (PyValue.str "I am not happy today") :=
  C7_amended lemId (fun _ => rfl) (PyValue.str "I am not happy today") (by decide)

end EmotionApp
